import Mathlib

/-!
Verification of the commit-history report generator (history.py).

The program scans a projects directory for git checkouts, queries each
branch of each repository for commits by configured authors since a date,
parses the field-delimited log output, deduplicates commits that appear on
several branches of the same repository, groups them into a
date -> repository -> branch -> commit list structure, and renders it.

Shallow embedding conventions:
  * text is handled as List Char (Python str operations are re-implemented
    character by character; Lean's built-in String functions are only used
    as structure wrappers);
  * the filesystem and the git subprocess are modelled as explicit input
    data (SubprocessOutcome, RootFS);
  * Python exceptions are modelled with Except; an uncaught exception is an
    Except.error value;
  * Python dict (insertion-ordered) is modelled as an association list
    where a fresh key is appended at the end, matching dict semantics.
-/

namespace CommitHistory

/-- Python str.strip() (whitespace at both ends).  Char.isWhitespace covers
space, tab, CR, LF which is what occurs in git log output. -/
def pyStrip (l : List Char) : List Char :=
  ((l.dropWhile (fun c => c.isWhitespace)).reverse.dropWhile
    (fun c => c.isWhitespace)).reverse

/-- Python str.strip(c) for a single character c (both ends). -/
def pyStripChar (c : Char) (l : List Char) : List Char :=
  ((l.dropWhile (fun a => a == c)).reverse.dropWhile (fun a => a == c)).reverse

/-- Python str.split(sep) for a one-character separator: unlimited split,
"".split(sep) is [""]. -/
def splitCh (sep : Char) : List Char → List (List Char)
  | [] => [[]]
  | c :: t =>
    if c = sep then [] :: splitCh sep t
    else
      match splitCh sep t with
      | [] => [[c]]
      | f :: r => (c :: f) :: r

/-- Python str.split(sep, maxsplit): split at the first maxsplit
occurrences of sep, the remainder is kept whole as the last part. -/
def splitAtMostCh (sep : Char) : Nat → List Char → List (List Char)
  | _, [] => [[]]
  | 0, l => [l]
  | n + 1, c :: t =>
    if c = sep then [] :: splitAtMostCh sep n t
    else
      match splitAtMostCh sep (n + 1) t with
      | [] => [[c]]
      | f :: r => (c :: f) :: r

/-- Numeric value of a digit string. -/
def digitsVal (l : List Char) : Nat :=
  l.foldl (fun n c => n * 10 + (c.toNat - 48)) 0

/-- Python int(str): strips whitespace, optional sign, then decimal digits;
anything else raises ValueError (modelled as none).  (Underscore digit
grouping is not modelled; git timestamps never contain it.) -/
def pyInt? (l : List Char) : Option Int :=
  match pyStrip l with
  | '-' :: rest =>
    if rest.isEmpty then none
    else if rest.all (fun c => c.isDigit) then some (-(digitsVal rest : Int))
    else none
  | '+' :: rest =>
    if rest.isEmpty then none
    else if rest.all (fun c => c.isDigit) then some ((digitsVal rest : Int))
    else none
  | t =>
    if t.isEmpty then none
    else if t.all (fun c => c.isDigit) then some ((digitsVal t : Int))
    else none

/-- Python exceptions that the program can raise or catch. -/
inductive PyExn where
  /-- OSError / FileNotFoundError: the executable could not be launched. -/
  | osError
  /-- IndexError: a list index out of range. -/
  | indexError
  /-- ValueError: int() applied to a non-numeric string. -/
  | valueError
deriving DecidableEq, Repr

/-- What the git subprocess did for one invocation.  check_output raises
CalledProcessError on a non-zero exit status and OSError when the
executable cannot be launched at all. -/
inductive SubprocessOutcome where
  /-- Exit status 0; stdout captured. -/
  | success (stdout : String)
  /-- Non-zero exit status (CalledProcessError). -/
  | nonZeroExit (code : Nat)
  /-- The executable could not be launched (OSError). -/
  | launchFailure
deriving DecidableEq, Repr

/-- run_git_command: returns output.strip() on success; the except clause
catches only subprocess.CalledProcessError (non-zero exit) and returns "";
an OSError from a failed launch is not caught and propagates. -/
def run_git_command (o : SubprocessOutcome) : Except PyExn String :=
  match o with
  | .success stdout => .ok (String.mk (pyStrip stdout.data))
  | .nonZeroExit _ => .ok ""
  | .launchFailure => .error .osError

/-- The record separator written after each commit (\x1f,
commit_separator in get_commits). -/
def commitSep : Char := '\x1f'

/-- The field separator between hash, date, timestamp and message (\x1e,
field_separator in get_commits). -/
def fieldSep : Char := '\x1e'

/-- One parsed commit record (the dict built in get_commits). -/
structure Commit where
  hash : String
  date_str : String
  timestamp : Int
  message : String
deriving DecidableEq, Repr

/-- The per-record body of the parsing loop in get_commits:
parts = line.strip().split(field_separator, 3), then the dict literal
evaluates parts[0], parts[1], int(parts[2]), parts[3].strip() in order.
Fewer than three parts raises IndexError at parts[1] or parts[2]; with
exactly three parts int(parts[2]) is evaluated (possibly raising
ValueError) before parts[3] raises IndexError. -/
def parseRecordCh (line : List Char) : Except PyExn Commit :=
  match splitAtMostCh fieldSep 3 (pyStrip line) with
  | p0 :: p1 :: p2 :: rest =>
    match pyInt? p2 with
    | none => .error .valueError
    | some ts =>
      match rest with
      | p3 :: _ =>
        .ok { hash := String.mk p0, date_str := String.mk p1,
              timestamp := ts, message := String.mk (pyStrip p3) }
      | [] => .error .indexError
  | _ => .error .indexError

/-- String wrapper around parseRecordCh. -/
def parseRecord (line : String) : Except PyExn Commit :=
  parseRecordCh line.data

/-- output.strip(commit_separator).split(commit_separator): the candidate
record strings of one git log output. -/
def recordsOf (output : String) : List (List Char) :=
  splitCh commitSep (pyStripChar commitSep output.data)

/-- The parsing loop of get_commits: each record is parsed in order and an
exception raised for any record aborts the whole loop. -/
def parseRecords : List (List Char) → Except PyExn (List Commit)
  | [] => .ok []
  | l :: t =>
    match parseRecordCh l with
    | .error e => .error e
    | .ok c =>
      match parseRecords t with
      | .error e => .error e
      | .ok cs => .ok (c :: cs)

/-- The parsing half of get_commits: `if output:` guards the loop, so empty
output yields the empty list without touching the records. -/
def parse_commits (output : String) : Except PyExn (List Commit) :=
  if output = "" then .ok []
  else parseRecords (recordsOf output)

/-- get_commits for one (repository, branch) pair: run the subprocess and
parse its output; exceptions from either stage propagate. -/
def get_commits (o : SubprocessOutcome) : Except PyExn (List Commit) :=
  match run_git_command o with
  | .error e => .error e
  | .ok output => parse_commits output

/-! ## The aggregation loop of main -/

/-- One branch entry of the grouped structure: branch ref name and the
commit list accumulated under it. -/
abbrev BranchMap := List (String × List Commit)

/-- One date entry: repository name to branch map. -/
abbrev RepoMap := List (String × BranchMap)

/-- The grouped structure all_commits: date string to repository name to
branch ref name to commit list, each level an insertion-ordered map. -/
abbrev Grouped := List (String × RepoMap)

/-- Input to the aggregation loop for one discovered repository: git_dir
(path on disk), git_dir.name (directory basename) and, per enumerated
branch ref, the parsed commits of get_commits in git log order. -/
structure RepoInput where
  path : String
  name : String
  branches : List (String × List Commit)
deriving DecidableEq, Repr

/-- defaultdict access m[k] followed by an update of the value: if k is
present its value is updated in place, otherwise the key is created at the
end (dict preserves insertion order). -/
def appendAt {β : Type} (d : β) (upd : β → β) :
    List (String × β) → String → List (String × β)
  | [], k => [(k, upd d)]
  | (k', v) :: t, k =>
    if k = k' then (k', upd v) :: t else (k', v) :: appendAt d upd t k

/-- all_commits[commit.date_str][git_dir.name][branch].append(commit). -/
def insertCommit (g : Grouped) (date repo branch : String) (c : Commit) :
    Grouped :=
  appendAt [] (fun rm =>
    appendAt [] (fun bm =>
      appendAt [] (fun cs => cs ++ [c]) bm branch) rm repo) g date

/-- A (repository name, branch ref, commit) occurrence of the enumeration. -/
abbrev Triple := String × String × Commit

/-- The loop body of main for one commit: key = (git_dir.name,
commit.hash); if key in seen, continue; else add it to seen and insert the
commit into the grouped structure under its date, repository and branch. -/
def aggStep (st : Grouped × List (String × String)) (t : Triple) :
    Grouped × List (String × String) :=
  if (t.1, t.2.2.hash) ∈ st.2 then st
  else (insertCommit st.1 t.2.2.date_str t.1 t.2.1 t.2.2,
        (t.1, t.2.2.hash) :: st.2)

/-- The triple loop of main: for each repository, for each branch, for each
commit, run aggStep; seen and all_commits start empty. -/
def aggregateFrom (st : Grouped × List (String × String))
    (repos : List RepoInput) : Grouped × List (String × String) :=
  repos.foldl (fun st repo =>
    repo.branches.foldl (fun st bc =>
      bc.2.foldl (fun st c => aggStep st (repo.name, bc.1, c)) st) st) st

/-- The grouped structure built by one run of main, starting from a fresh
empty seen set and a fresh empty grouped structure. -/
def aggregate (repos : List RepoInput) : Grouped :=
  (aggregateFrom ([], []) repos).1

/-- The commit occurrences of the input in enumeration order (repositories
in scan order, branches in for-each-ref order, commits in log order). -/
def flattenInput (repos : List RepoInput) : List Triple :=
  repos.flatMap (fun repo =>
    repo.branches.flatMap (fun bc =>
      bc.2.map (fun c => (repo.name, bc.1, c))))

/-- The (branch, commit) occurrences of one branch map. -/
def bmEntries (bm : BranchMap) : List (String × Commit) :=
  bm.flatMap (fun be => be.2.map (fun c => (be.1, c)))

/-- The (repository, branch, commit) occurrences of one repo map. -/
def rmEntries (rm : RepoMap) : List Triple :=
  rm.flatMap (fun re => (bmEntries re.2).map (fun bc => (re.1, bc.1, bc.2)))

/-- All (repository, branch, commit) occurrences of a grouped structure. -/
def groupedEntries (g : Grouped) : List Triple :=
  g.flatMap (fun de => rmEntries de.2)

/-- How many occurrences with repository name r and commit hash h a grouped
structure holds, across all dates and branches. -/
def keyCount (g : Grouped) (r h : String) : Nat :=
  (groupedEntries g).countP (fun e => decide (e.1 = r ∧ e.2.2.hash = h))

/-- The first occurrence, in enumeration order, of a commit with hash h in
repository r: the branch it is found on and the record itself. -/
def firstOcc : List Triple → String → String → Option (String × Commit)
  | [], _, _ => none
  | e :: t, r, h =>
    if e.1 = r ∧ e.2.2.hash = h then some (e.2.1, e.2.2) else firstOcc t r h

/-- Running the whole collection-and-aggregation pipeline twice on the same
input, each run constructing its grouped structure and dedup set from
scratch. -/
def run_pipeline_twice (repos : List RepoInput) : Grouped × Grouped :=
  (aggregate repos, aggregate repos)

/-! ## The render-time ordering and branch display names -/

/-- Stable insertion into a list sorted by the Bool order le. -/
def insertLe {α : Type} (le : α → α → Bool) (x : α) : List α → List α
  | [] => [x]
  | y :: t => if le x y then x :: y :: t else y :: insertLe le x t

/-- Stable insertion sort by the Bool order le; Python sorted() is a stable
sort, and insertion sort as defined here keeps equal elements in their
original relative order. -/
def sortLe {α : Type} (le : α → α → Bool) : List α → List α
  | [] => []
  | x :: t => insertLe le x (sortLe le t)

/-- The sorted() calls of the render loop in main: sorted(all_commits
.items()) by date, sorted(repos.items()) by repository name,
sorted(branches.items()) by branch key, and sorted(commits,
key=itemgetter(timestamp)) inside each branch. -/
def render_sorted (g : Grouped) : Grouped :=
  (sortLe (fun a b => decide (a.1 ≤ b.1)) g).map (fun de =>
    (de.1, (sortLe (fun a b => decide (a.1 ≤ b.1)) de.2).map (fun re =>
      (re.1, (sortLe (fun a b => decide (a.1 ≤ b.1)) re.2).map (fun be =>
        (be.1,
         sortLe (fun a b => decide (a.timestamp ≤ b.timestamp)) be.2))))))

/-- re.sub of the pattern anchored at the start that strips refs/heads/ or
refs/remotes/<remote>/ (one or more non-slash characters followed by a
slash) from a branch ref, used only when displaying the branch line. -/
def displayNameCh (s : List Char) : List Char :=
  if "refs/heads/".data.isPrefixOf s then s.drop 11
  else if "refs/remotes/".data.isPrefixOf s then
    let rest := s.drop 13
    let remote := rest.takeWhile (fun c => c != '/')
    if 0 < remote.length ∧ remote.length < rest.length then
      rest.drop (remote.length + 1)
    else s
  else s

/-- String wrapper around displayNameCh (branch_name in the render loop). -/
def displayName (s : String) : String :=
  String.mk (displayNameCh s.data)

/-! ## The repository locator -/

/-- One immediate child of the scan root, as the filesystem presents it:
its basename, whether it is a directory, whether it can be traversed
(execute permission), and whether it holds a .git marker entry. -/
structure DirEntry where
  name : String
  isDir : Bool
  readable : Bool
  hasGitMarker : Bool
deriving DecidableEq, Repr

/-- The scan root as the filesystem presents it. -/
structure RootFS where
  pathExists : Bool
  isDirectory : Bool
  readable : Bool
  entries : List DirEntry
deriving DecidableEq, Repr

/-- The OSError subclasses the pathlib calls of find_git_repos raise: the
first two from Path.iterdir on a bad root (the spec's taxonomy names the
pre-scan failures ConfigurationError), permissionDenied from stat on a path
that cannot be traversed. -/
inductive ScanError where
  | fileNotFound
  | notADirectory
  | permissionDenied
deriving DecidableEq, Repr

/-- The list comprehension of find_git_repos, one immediate child at a
time: d.is_dir() is False for a non-directory child (its stat only needs
traversal of the root), short-circuiting the conjunction; for a directory
child, (d / ".git").exists() stats inside d, and on CPython up to 3.12 --
the interpreter family this unpinned script runs on, 3.11 here --
pathlib ignores only ENOENT, ENOTDIR, EBADF and ELOOP, so the EACCES of an
unreadable child re-raises as PermissionError and aborts the whole
comprehension; for a traversable directory child the call returns whether
the .git marker is present. -/
def scanEntries : List DirEntry → Except ScanError (List DirEntry)
  | [] => .ok []
  | d :: t =>
    if d.isDir = true then
      if d.readable = false then .error .permissionDenied
      else
        match scanEntries t with
        | .error e => .error e
        | .ok l => .ok (if d.hasGitMarker = true then d :: l else l)
    else scanEntries t

/-- find_git_repos: Path(root).iterdir() raises for a missing,
non-directory or unreadable root before anything is scanned; otherwise the
comprehension over the immediate children runs, with the per-child
semantics of scanEntries (an unreadable directory child aborts it with an
uncaught PermissionError on CPython up to 3.12). -/
def find_git_repos (root : RootFS) : Except ScanError (List DirEntry) :=
  if root.pathExists = false then .error .fileNotFound
  else if root.isDirectory = false then .error .notADirectory
  else if root.readable = false then .error .permissionDenied
  else scanEntries root.entries

/-! ## The default since-date -/

/-- get_last_monday, on days numbered so that day 0 is a Monday and the
weekday of day d is d % 7 (Monday = 0, matching datetime.weekday()):
offset = weekday % 7, and today minus (offset or 7) days, so a Monday goes
back a full week and any other day goes back to the Monday just before. -/
def get_last_monday (today : Int) : Int :=
  today - (if today % 7 = 0 then 7 else today % 7)

/-- The loop invariant of the aggregation: after processing the occurrence
list p, (a) each (repository, hash) dedup key has exactly one occurrence in
the grouped structure when it is in seen and none otherwise, (b) every
grouped occurrence is the first occurrence, in enumeration order, of its
dedup key, and (c) seen holds exactly the keys that occurred in p. -/
def Inv (p : List Triple) (g : Grouped) (seen : List (String × String)) : Prop :=
  (∀ r h, keyCount g r h = if (r, h) ∈ seen then 1 else 0)
  ∧ (∀ r b c, (r, b, c) ∈ groupedEntries g → firstOcc p r c.hash = some (b, c))
  ∧ (∀ r h, (r, h) ∈ seen ↔ (firstOcc p r h).isSome = true)

/-! ## Concrete data for evaluating the definitions -/

/-- The scenario of the spec: repository alpha, branch main carries a1, a2
and branch feature carries a2 (duplicate) and a3. -/
def demoA1 : Commit :=
  { hash := "a1", date_str := "2024-01-01", timestamp := 100, message := "one" }

/-- Duplicate commit, present on both branches of the scenario. -/
def demoA2 : Commit :=
  { hash := "a2", date_str := "2024-01-01", timestamp := 200, message := "two" }

/-- Commit present only on the feature branch of the scenario. -/
def demoA3 : Commit :=
  { hash := "a3", date_str := "2024-01-01", timestamp := 300, message := "three" }

/-- The scenario input: one repository, two branches sharing demoA2. -/
def demoRepos : List RepoInput :=
  [{ path := "/home/u/projects/alpha", name := "alpha",
     branches := [("refs/heads/main", [demoA1, demoA2]),
                  ("refs/heads/feature", [demoA2, demoA3])] }]

/-- A checkout of a project named proj. -/
def demoDup1 : RepoInput :=
  { path := "/a/proj", name := "proj",
    branches := [("refs/heads/main", [demoA1, demoA2])] }

/-- A second checkout with the same basename at a different path, holding a
commit that the first checkout also holds. -/
def demoDup2 : RepoInput :=
  { path := "/b/proj", name := "proj",
    branches := [("refs/heads/main", [demoA2])] }

/-- A grouped structure whose only branch holds commits out of timestamp
order, as the aggregation can produce when a branch lists newest first. -/
def demoUnsorted : Grouped :=
  [("2024-01-01", [("alpha", [("refs/heads/main", [demoA2, demoA1])])])]

/-- An immediate subdirectory that is a git checkout. -/
def demoGoodDir : DirEntry :=
  { name := "alpha", isDir := true, readable := true, hasGitMarker := true }

/-- An immediate subdirectory without a .git marker. -/
def demoPlainDir : DirEntry :=
  { name := "notes", isDir := true, readable := true, hasGitMarker := false }

/-- An unreadable immediate subdirectory. -/
def demoLockedDir : DirEntry :=
  { name := "locked", isDir := true, readable := false, hasGitMarker := true }

/-- A valid scan root holding the three subdirectories above. -/
def demoRoot : RootFS :=
  { pathExists := true, isDirectory := true, readable := true,
    entries := [demoGoodDir, demoPlainDir, demoLockedDir] }

/-- A scan root path that does not exist. -/
def demoMissingRoot : RootFS :=
  { pathExists := false, isDirectory := false, readable := false, entries := [] }

/-- A valid scan root all of whose directory children are traversable. -/
def demoCleanRoot : RootFS :=
  { pathExists := true, isDirectory := true, readable := true,
    entries := [demoGoodDir, demoPlainDir] }

/-! # Theorems -/

/-- C3 counterexample: when the executable cannot be launched, the OSError
is not caught, so run_git_command does not return an empty result for the
pair; the exception reaches the caller. -/
theorem run_git_launch_failure_counterexample :
    (run_git_command SubprocessOutcome.launchFailure).isOk = false := rfl

/-- C3 amended: a subprocess that exits non-zero is recovered as an empty
result for that (repository, branch) pair; a successful run yields its
stripped output; but a launch failure (executable unreachable) raises
OSError to the caller, since only CalledProcessError is caught. -/
theorem run_git_command_amended :
    (∀ code : Nat,
      run_git_command (SubprocessOutcome.nonZeroExit code) = Except.ok "")
    ∧ run_git_command SubprocessOutcome.launchFailure = Except.error PyExn.osError
    ∧ ∀ s : String, run_git_command (SubprocessOutcome.success s)
        = Except.ok (String.mk (pyStrip s.data)) :=
  ⟨fun _ => rfl, rfl, fun _ => rfl⟩

/-- C9: with days numbered so that day 0 is a Monday, the default
since-date is a Monday strictly before today; it is the most recent such
Monday when today is not a Monday, and exactly seven days prior when today
is a Monday. -/
theorem get_last_monday_spec (today : Int) :
    get_last_monday today % 7 = 0
    ∧ get_last_monday today < today
    ∧ (today % 7 = 0 → get_last_monday today = today - 7)
    ∧ (today % 7 ≠ 0 →
        ∀ d : Int, d % 7 = 0 → d < today → d ≤ get_last_monday today) := by
  unfold get_last_monday
  by_cases h : today % 7 = 0
  · rw [if_pos h]
    exact ⟨by omega, by omega, fun _ => rfl, fun hc => absurd h hc⟩
  · rw [if_neg h]
    exact ⟨by omega, by omega, fun hc => absurd hc h, fun _ d hd hlt => by omega⟩

/-- C9 witness: on day 10 (a Wednesday) the default goes back to day 7, and
day 0, also a Monday before day 10, is not more recent; on day 7 (a
Monday) the default goes back a full week to day 0. -/
theorem get_last_monday_spec_witness :
    get_last_monday 10 = 7
    ∧ (0 : Int) ≤ get_last_monday 10
    ∧ get_last_monday 7 = 0 := by
  refine ⟨by decide, ?_, ?_⟩
  · exact (get_last_monday_spec 10).2.2.2 (by decide) 0 (by decide) (by decide)
  · have h := (get_last_monday_spec 7).2.2.1 (by decide)
    rw [h]
    decide

/-- C8: one run of the pipeline is a pure function of its input; the dedup
set and the grouped structure are constructed fresh inside aggregate (the
initial state ([], []) is baked into its definition), so two runs over the
same input produce identical grouped structures. -/
theorem pipeline_idempotent (repos : List RepoInput) :
    run_pipeline_twice repos = (aggregate repos, aggregate repos)
    ∧ (run_pipeline_twice repos).1 = (run_pipeline_twice repos).2 :=
  ⟨rfl, rfl⟩

/-- C6 counterexample: the demo root is a readable directory whose entries
include an unreadable subdirectory; the scan is not silently skipping it
but aborts whole with the re-raised PermissionError (CPython up to 3.12
does not ignore EACCES in Path.exists), returning no result at all. -/
theorem find_git_repos_unreadable_counterexample :
    find_git_repos demoRoot = Except.error ScanError.permissionDenied
    ∧ demoLockedDir ∈ demoRoot.entries
    ∧ demoLockedDir.isDir = true
    ∧ demoLockedDir.readable = false := by
  refine ⟨rfl, by decide, rfl, rfl⟩

/-- When every directory child is traversable, the comprehension completes
and keeps exactly the directory children with a .git marker. -/
theorem scanEntries_ok (l : List DirEntry)
    (h : ∀ d ∈ l, d.isDir = true → d.readable = true) :
    scanEntries l = Except.ok (l.filter (fun d => d.isDir && d.hasGitMarker)) := by
  induction l with
  | nil => rfl
  | cons x t ih =>
    have ht := ih (fun d hd => h d (List.mem_cons_of_mem x hd))
    by_cases hx : x.isDir = true
    · have hr := h x (List.mem_cons_self x t) hx
      rw [scanEntries, if_pos hx, if_neg (by simp [hr]), ht]
      by_cases hg : x.hasGitMarker = true
      · simp [List.filter_cons, hx, hg]
      · simp [List.filter_cons, hx, hg]
    · rw [scanEntries, if_neg hx, ht]
      have hx2 : x.isDir = false := by
        cases hxv : x.isDir
        · rfl
        · exact absurd hxv hx
      simp [List.filter_cons, hx2]

/-- One unreadable directory child anywhere in the enumeration makes the
comprehension raise. -/
theorem scanEntries_err (l : List DirEntry) (d : DirEntry) (hd : d ∈ l)
    (hdir : d.isDir = true) (hread : d.readable = false) :
    ∃ e, scanEntries l = Except.error e := by
  induction l with
  | nil => cases hd
  | cons x t ih =>
    rcases List.mem_cons.mp hd with h1 | h1
    · rw [scanEntries, if_pos (h1 ▸ hdir), if_pos (h1 ▸ hread)]
      exact ⟨.permissionDenied, rfl⟩
    · obtain ⟨e, he⟩ := ih h1
      by_cases hx : x.isDir = true
      · by_cases hr : x.readable = false
        · rw [scanEntries, if_pos hx, if_pos hr]
          exact ⟨.permissionDenied, rfl⟩
        · rw [scanEntries, if_pos hx, if_neg hr, he]
          exact ⟨e, rfl⟩
      · rw [scanEntries, if_neg hx]
        exact ⟨e, he⟩

/-- C6 amended: a missing, non-directory or unreadable root fails with the
fatal error (the spec's ConfigurationError) before any scanning, and for a
readable directory root all of whose directory children are traversable
the result is exactly the immediate subdirectories carrying a .git marker;
but an unreadable subdirectory is not silently skipped: on the CPython
versions up to 3.12 this unpinned script runs on, stat of its .git child
re-raises PermissionError and the whole scan aborts with no result. -/
theorem find_git_repos_amended (root : RootFS) :
    ((root.pathExists = false ∨ root.isDirectory = false) →
      ∃ e, find_git_repos root = Except.error e)
    ∧ (root.pathExists = true → root.isDirectory = true → root.readable = true →
        (∀ d ∈ root.entries, d.isDir = true → d.readable = true) →
        ∀ d : DirEntry,
          (∃ l, find_git_repos root = Except.ok l ∧ d ∈ l) ↔
          (d ∈ root.entries ∧ d.isDir = true ∧ d.hasGitMarker = true))
    ∧ (root.pathExists = true → root.isDirectory = true → root.readable = true →
        ∀ d ∈ root.entries, d.isDir = true → d.readable = false →
          ∃ e, find_git_repos root = Except.error e) := by
  have hok : root.pathExists = true → root.isDirectory = true →
      root.readable = true → find_git_repos root = scanEntries root.entries := by
    intro hp hd hr
    unfold find_git_repos
    rw [if_neg (by simp [hp]), if_neg (by simp [hd]), if_neg (by simp [hr])]
  refine ⟨?_, ?_, ?_⟩
  · intro h
    unfold find_git_repos
    by_cases h1 : root.pathExists = false
    · rw [if_pos h1]
      exact ⟨.fileNotFound, rfl⟩
    · have h2 : root.isDirectory = false := by
        rcases h with h | h
        · exact absurd h h1
        · exact h
      rw [if_neg h1, if_pos h2]
      exact ⟨.notADirectory, rfl⟩
  · intro hp hd hr hall d
    have hfind : find_git_repos root
        = Except.ok (root.entries.filter (fun d => d.isDir && d.hasGitMarker)) := by
      rw [hok hp hd hr, scanEntries_ok root.entries hall]
    constructor
    · rintro ⟨l, hl, hdl⟩
      rw [hfind] at hl
      have hl2 := Except.ok.inj hl
      rw [← hl2] at hdl
      have hm := List.mem_filter.mp hdl
      refine ⟨hm.1, ?_, ?_⟩ <;>
        · have := hm.2
          simp only [Bool.and_eq_true] at this
          tauto
    · rintro ⟨hmem, h1, h2⟩
      exact ⟨_, hfind, List.mem_filter.mpr ⟨hmem, by simp [h1, h2]⟩⟩
  · intro hp hd hr d hmem hdir hread
    rw [hok hp hd hr]
    exact scanEntries_err root.entries d hmem hdir hread

/-- C6 amended witness: a missing root errors before scanning; on the
all-traversable demo root the checkout subdirectory is returned and the
marker-less one is not; on the root with an unreadable subdirectory the
scan errors. -/
theorem find_git_repos_amended_witness :
    (∃ e, find_git_repos demoMissingRoot = Except.error e)
    ∧ (∃ l, find_git_repos demoCleanRoot = Except.ok l ∧ demoGoodDir ∈ l)
    ∧ ¬ (∃ l, find_git_repos demoCleanRoot = Except.ok l ∧ demoPlainDir ∈ l)
    ∧ (∃ e, find_git_repos demoRoot = Except.error e) := by
  refine ⟨?_, ?_, ?_, ?_⟩
  · exact (find_git_repos_amended demoMissingRoot).1 (Or.inl rfl)
  · exact ((find_git_repos_amended demoCleanRoot).2.1 rfl rfl rfl (by decide)
      demoGoodDir).mpr (by decide)
  · intro hcontra
    have := ((find_git_repos_amended demoCleanRoot).2.1 rfl rfl rfl (by decide)
      demoPlainDir).mp hcontra
    simp [demoPlainDir] at this
  · exact (find_git_repos_amended demoRoot).2.2 rfl rfl rfl demoLockedDir
      (by decide) rfl rfl

/-- With maxsplit exhausted, the remainder is returned whole. -/
theorem splitAtMostCh_zero (sep : Char) (l : List Char) :
    splitAtMostCh sep 0 l = [l] := by
  cases l <;> rfl

/-- A separator-free field followed by a separator splits off as one part. -/
theorem splitAtMostCh_sep (sep : Char) (n : Nat) (a rest : List Char)
    (ha : sep ∉ a) :
    splitAtMostCh sep (n + 1) (a ++ sep :: rest)
      = a :: splitAtMostCh sep n rest := by
  induction a with
  | nil => simp [splitAtMostCh]
  | cons x xs ih =>
    have hx : ¬ x = sep := fun hh => ha (List.mem_cons.mpr (Or.inl hh.symm))
    have ha2 : sep ∉ xs := fun hm => ha (List.mem_cons.mpr (Or.inr hm))
    show splitAtMostCh sep (n + 1) (x :: (xs ++ sep :: rest)) = _
    rw [splitAtMostCh, if_neg hx, ih ha2]

/-- A full record line with separator-free hash, date and timestamp fields
splits into exactly those three fields plus the whole remaining message,
embedded newlines included. -/
theorem splitAtMostCh_three (a b c m : List Char)
    (ha : fieldSep ∉ a) (hb : fieldSep ∉ b) (hc : fieldSep ∉ c) :
    splitAtMostCh fieldSep 3
        (a ++ fieldSep :: (b ++ fieldSep :: (c ++ fieldSep :: m)))
      = [a, b, c, m] := by
  rw [splitAtMostCh_sep _ _ _ _ ha, splitAtMostCh_sep _ _ _ _ hb,
      splitAtMostCh_sep _ _ _ _ hc, splitAtMostCh_zero]

/-- C7: for a well-formed record whose line and message carry no
surrounding whitespace, the parsed message is exactly the raw message
remainder after the third separator: it is never split further, so any
embedded newlines survive into the Commit Record. -/
theorem message_newlines_preserved (h d t m : List Char) (n : Int)
    (hline : pyStrip (h ++ fieldSep :: (d ++ fieldSep :: (t ++ fieldSep :: m)))
      = h ++ fieldSep :: (d ++ fieldSep :: (t ++ fieldSep :: m)))
    (hh : fieldSep ∉ h) (hd : fieldSep ∉ d) (ht : fieldSep ∉ t)
    (hn : pyInt? t = some n) (hm : pyStrip m = m) :
    parseRecordCh (h ++ fieldSep :: (d ++ fieldSep :: (t ++ fieldSep :: m)))
      = Except.ok { hash := String.mk h, date_str := String.mk d,
                    timestamp := n, message := String.mk m } := by
  unfold parseRecordCh
  rw [hline, splitAtMostCh_three h d t m hh hd ht]
  simp only [hn, hm]

/-- C7 witness: a record whose message spans two lines parses to a Commit
Record carrying the newline inside its message. -/
theorem message_newlines_preserved_witness :
    parseRecordCh ("h1".data ++ fieldSep :: ("2024-01-01".data ++ fieldSep ::
        ("1704067200".data ++ fieldSep :: "summary\nbody line".data)))
      = Except.ok { hash := String.mk "h1".data,
                    date_str := String.mk "2024-01-01".data,
                    timestamp := 1704067200,
                    message := String.mk "summary\nbody line".data } :=
  message_newlines_preserved "h1".data "2024-01-01".data "1704067200".data
    "summary\nbody line".data 1704067200 (by decide) (by decide) (by decide)
    (by decide) (by decide) (by decide)

/-- When every record of the batch parses, the loop returns them all. -/
theorem parseRecords_all_ok (l : List (List Char))
    (h : ∀ r ∈ l, (parseRecordCh r).isOk = true) :
    ∃ cs, parseRecords l = Except.ok cs ∧ cs.length = l.length := by
  induction l with
  | nil => exact ⟨[], rfl, rfl⟩
  | cons x t ih =>
    have hx := h x (List.mem_cons_self x t)
    obtain ⟨c, hc⟩ : ∃ c, parseRecordCh x = Except.ok c := by
      cases hxx : parseRecordCh x with
      | error e => rw [hxx] at hx; simp [Except.isOk, Except.toBool] at hx
      | ok c => exact ⟨c, rfl⟩
    obtain ⟨cs, hcs, hlen⟩ := ih (fun r hr => h r (List.mem_cons_of_mem x hr))
    exact ⟨c :: cs, by simp [parseRecords, hc, hcs], by simp [hlen]⟩

/-- One failing record makes the whole loop raise: nothing is dropped. -/
theorem parseRecords_err (l : List (List Char)) (r : List Char)
    (hr : r ∈ l) (he : (parseRecordCh r).isOk = false) :
    (parseRecords l).isOk = false := by
  induction l with
  | nil => cases hr
  | cons x t ih =>
    simp only [parseRecords]
    cases hxx : parseRecordCh x with
    | error e => simp [Except.isOk, Except.toBool]
    | ok c =>
      rcases List.mem_cons.mp hr with h1 | h1
      · rw [h1, hxx] at he
        simp [Except.isOk, Except.toBool] at he
      · have h2 := ih h1
        cases hts : parseRecords t with
        | error e => simp [Except.isOk, Except.toBool]
        | ok cs => rw [hts] at h2; simp [Except.isOk, Except.toBool] at h2

/-- C2 amended: empty output parses to the empty sequence; when every
candidate record is well formed the parser returns the full ordered batch;
but one malformed record (fewer than four fields, or a non-integer
timestamp) raises and aborts the whole batch instead of being dropped. -/
theorem parse_commits_amended (output : String) :
    (output = "" → parse_commits output = Except.ok [])
    ∧ ((∀ r ∈ recordsOf output, (parseRecordCh r).isOk = true) →
        ∃ cs, parse_commits output = Except.ok cs ∧
          cs.length = (recordsOf output).length)
    ∧ (output ≠ "" → ∀ r ∈ recordsOf output,
        (parseRecordCh r).isOk = false → (parse_commits output).isOk = false) := by
  refine ⟨?_, ?_, ?_⟩
  · intro h
    simp [parse_commits, h]
  · intro h
    by_cases ho : output = ""
    · exfalso
      have hmem : ([] : List Char) ∈ recordsOf output := by
        rw [ho]
        decide
      have h0 := h [] hmem
      have hempty : parseRecordCh [] = Except.error PyExn.indexError := rfl
      rw [hempty] at h0
      simp [Except.isOk, Except.toBool] at h0
    · obtain ⟨cs, h1, h2⟩ := parseRecords_all_ok _ h
      exact ⟨cs, by simp [parse_commits, ho, h1], h2⟩
  · intro ho r hr he
    simp only [parse_commits, if_neg ho]
    exact parseRecords_err _ r hr he

/-- C2 amended witness: the two-record stream of the spec scenario parses
to a batch of two commits. -/
theorem parse_commits_amended_witness :
    ∃ cs, parse_commits
        "h1\x1e2024-01-01\x1e1704067200\x1eFix bug\x1fh2\x1e2024-01-02\x1e1704153600\x1eAdd feature\x1f"
        = Except.ok cs ∧ cs.length = 2 := by
  obtain ⟨cs, h1, h2⟩ := (parse_commits_amended
    "h1\x1e2024-01-01\x1e1704067200\x1eFix bug\x1fh2\x1e2024-01-02\x1e1704153600\x1eAdd feature\x1f").2.1
    (by decide)
  refine ⟨cs, h1, ?_⟩
  rw [h2]
  decide

/-- C2 counterexample: a single record with only three fields makes the
parser raise IndexError, aborting the batch, rather than dropping the
record and returning the empty sequence. -/
theorem parse_malformed_raises_counterexample :
    parse_commits "h1\x1e2024-01-01\x1e100" = Except.error PyExn.indexError := rfl

/-- Appending a commit under a branch key adds exactly that (branch,
commit) occurrence to the branch map, up to order. -/
theorem bmEntries_append (bm : BranchMap) (b : String) (c : Commit) :
    (bmEntries (appendAt [] (fun cs => cs ++ [c]) bm b)).Perm
      ((b, c) :: bmEntries bm) := by
  induction bm with
  | nil =>
    simp [appendAt, bmEntries]
  | cons kv t ih =>
    obtain ⟨k0, v⟩ := kv
    by_cases hk : b = k0
    · subst hk
      simp only [appendAt, eq_self_iff_true, if_true, bmEntries,
        List.flatMap_cons, List.map_append, List.append_assoc, List.map_cons,
        List.map_nil, List.singleton_append]
      exact List.perm_middle
    · simp only [appendAt, if_neg hk, bmEntries, List.flatMap_cons]
      exact (List.Perm.append_left _ ih).trans List.perm_middle

/-- Inserting a commit under repository and branch keys adds exactly that
(repository, branch, commit) occurrence to the repo map, up to order. -/
theorem rmEntries_append (rm : RepoMap) (r b : String) (c : Commit) :
    (rmEntries (appendAt []
        (fun bm => appendAt [] (fun cs => cs ++ [c]) bm b) rm r)).Perm
      ((r, b, c) :: rmEntries rm) := by
  induction rm with
  | nil =>
    simp [appendAt, rmEntries, bmEntries]
  | cons kv t ih =>
    obtain ⟨k0, bm⟩ := kv
    by_cases hk : r = k0
    · subst hk
      simp only [appendAt, eq_self_iff_true, if_true, rmEntries,
        List.flatMap_cons]
      exact List.Perm.append_right _
        ((bmEntries_append bm b c).map (fun bc => (r, bc.1, bc.2)))
    · simp only [appendAt, if_neg hk, rmEntries, List.flatMap_cons]
      exact (List.Perm.append_left _ ih).trans List.perm_middle

/-- insertCommit adds exactly one (repository, branch, commit) occurrence
to the grouped structure, up to order. -/
theorem groupedEntries_insert (g : Grouped) (dt r b : String) (c : Commit) :
    (groupedEntries (insertCommit g dt r b c)).Perm
      ((r, b, c) :: groupedEntries g) := by
  unfold insertCommit
  induction g with
  | nil =>
    simp [appendAt, groupedEntries, rmEntries, bmEntries]
  | cons kv t ih =>
    obtain ⟨k0, rm⟩ := kv
    by_cases hk : dt = k0
    · subst hk
      simp only [appendAt, eq_self_iff_true, if_true, groupedEntries,
        List.flatMap_cons]
      exact List.Perm.append_right _ (rmEntries_append rm r b c)
    · simp only [appendAt, if_neg hk, groupedEntries, List.flatMap_cons]
      exact (List.Perm.append_left _ ih).trans List.perm_middle

/-- Membership in the grouped structure after an insertion. -/
theorem mem_groupedEntries_insert {e : Triple} {g : Grouped}
    {dt r b : String} {c : Commit} :
    e ∈ groupedEntries (insertCommit g dt r b c) ↔
      e = (r, b, c) ∨ e ∈ groupedEntries g := by
  rw [(groupedEntries_insert g dt r b c).mem_iff]
  exact List.mem_cons

/-- How an insertion changes the occurrence count of a dedup key. -/
theorem keyCount_insert (g : Grouped) (dt r0 b0 : String) (c0 : Commit)
    (r h : String) :
    keyCount (insertCommit g dt r0 b0 c0) r h
      = (if r0 = r ∧ c0.hash = h then 1 else 0) + keyCount g r h := by
  unfold keyCount
  rw [List.Perm.countP_eq _ (groupedEntries_insert g dt r0 b0 c0),
    List.countP_cons]
  by_cases hc : r0 = r ∧ c0.hash = h
  · simp [hc]
    omega
  · simp [hc]

/-- A first occurrence found in p is still the first in p ++ q. -/
theorem firstOcc_append_some {p : List Triple} {r h : String}
    {x : String × Commit} (q : List Triple) (hp : firstOcc p r h = some x) :
    firstOcc (p ++ q) r h = some x := by
  induction p with
  | nil => simp [firstOcc] at hp
  | cons e t ih =>
    simp only [firstOcc, List.cons_append] at hp ⊢
    by_cases hc : e.1 = r ∧ e.2.2.hash = h
    · rw [if_pos hc] at hp ⊢
      exact hp
    · rw [if_neg hc] at hp ⊢
      exact ih hp

/-- When p has no occurrence of the key, the search continues into q. -/
theorem firstOcc_append_none {p : List Triple} {r h : String}
    (q : List Triple) (hp : firstOcc p r h = none) :
    firstOcc (p ++ q) r h = firstOcc q r h := by
  induction p with
  | nil => simp
  | cons e t ih =>
    simp only [firstOcc, List.cons_append] at hp ⊢
    by_cases hc : e.1 = r ∧ e.2.2.hash = h
    · rw [if_pos hc] at hp
      cases hp
    · rw [if_neg hc] at hp ⊢
      exact ih hp

/-- firstOcc over a single occurrence. -/
theorem firstOcc_singleton (t : Triple) (r h : String) :
    firstOcc [t] r h
      = if t.1 = r ∧ t.2.2.hash = h then some (t.2.1, t.2.2) else none := by
  simp [firstOcc]

/-- A first occurrence is an occurrence of the list with the right key. -/
theorem firstOcc_mem {l : List Triple} {r h b : String} {c : Commit}
    (hf : firstOcc l r h = some (b, c)) : (r, b, c) ∈ l ∧ c.hash = h := by
  induction l with
  | nil => simp [firstOcc] at hf
  | cons e t ih =>
    obtain ⟨e1, e2, e3⟩ := e
    simp only [firstOcc] at hf
    by_cases hc : e1 = r ∧ e3.hash = h
    · rw [if_pos hc] at hf
      have hf2 := Option.some.inj hf
      injection hf2 with hb hc3
      refine ⟨?_, by rw [← hc3]; exact hc.2⟩
      rw [← hc.1, ← hb, ← hc3]
      exact List.mem_cons_self _ _
    · rw [if_neg hc] at hf
      obtain ⟨h1, h2⟩ := ih hf
      exact ⟨List.mem_cons_of_mem _ h1, h2⟩

/-- One aggregation step preserves the loop invariant, the processed list
growing by the occurrence just handled. -/
theorem inv_step (t : Triple) {p : List Triple}
    {st : Grouped × List (String × String)} (hinv : Inv p st.1 st.2) :
    Inv (p ++ [t]) (aggStep st t).1 (aggStep st t).2 := by
  obtain ⟨g, seen⟩ := st
  obtain ⟨hA, hB, hC⟩ := hinv
  obtain ⟨r0, b0, c0⟩ := t
  by_cases hseen : (r0, c0.hash) ∈ seen
  · unfold aggStep
    dsimp only
    rw [if_pos hseen]
    refine ⟨hA, ?_, ?_⟩
    · intro r b c hmem
      exact firstOcc_append_some _ (hB r b c hmem)
    · intro r h
      rw [hC r h]
      constructor
      · intro hs
        obtain ⟨x, hx⟩ := Option.isSome_iff_exists.mp hs
        simp [firstOcc_append_some _ hx]
      · intro hs
        cases hp : firstOcc p r h with
        | some x => simp
        | none =>
          rw [firstOcc_append_none _ hp, firstOcc_singleton] at hs
          by_cases hc : r0 = r ∧ c0.hash = h
          · have hsome := (hC r h).mp (by rw [← hc.1, ← hc.2]; exact hseen)
            rw [hp] at hsome
            simp at hsome
          · rw [if_neg hc] at hs
            simp at hs
  · unfold aggStep
    dsimp only
    rw [if_neg hseen]
    dsimp only
    refine ⟨?_, ?_, ?_⟩
    · intro r h
      rw [keyCount_insert, hA r h]
      by_cases hc : r0 = r ∧ c0.hash = h
      · obtain ⟨h1, h2⟩ := hc
        subst h1
        subst h2
        have hnotin : ¬ (r0, c0.hash) ∈ seen := hseen
        simp [List.mem_cons, hnotin]
      · have hne : ¬ (r, h) = (r0, c0.hash) := by
          intro he
          injection he with he1 he2
          exact hc ⟨he1.symm, he2.symm⟩
        have hc2 : r0 = r → ¬ c0.hash = h := fun ha hb => hc ⟨ha, hb⟩
        simp [List.mem_cons, hne]
        exact hc2
    · intro r b c hmem
      rcases mem_groupedEntries_insert.mp hmem with he | hmem2
      · injection he with h1 h23
        injection h23 with h2 h3
        subst h1
        subst h2
        subst h3
        have hnone : firstOcc p r c.hash = none := by
          cases hp : firstOcc p r c.hash with
          | none => rfl
          | some x =>
            exact absurd ((hC r c.hash).mpr (by simp [hp])) hseen
        rw [firstOcc_append_none _ hnone, firstOcc_singleton]
        simp
      · exact firstOcc_append_some _ (hB r b c hmem2)
    · intro r h
      simp only [List.mem_cons]
      constructor
      · rintro (he | hs)
        · injection he with h1 h2
          rw [h1, h2]
          cases hp : firstOcc p r0 c0.hash with
          | some x => simp [firstOcc_append_some _ hp]
          | none =>
            rw [firstOcc_append_none _ hp, firstOcc_singleton]
            simp
        · obtain ⟨x, hx⟩ := Option.isSome_iff_exists.mp ((hC r h).mp hs)
          simp [firstOcc_append_some _ hx]
      · intro hs
        cases hp : firstOcc p r h with
        | some x => exact Or.inr ((hC r h).mpr (by simp [hp]))
        | none =>
          rw [firstOcc_append_none _ hp, firstOcc_singleton] at hs
          by_cases hc : r0 = r ∧ c0.hash = h
          · left
            rw [← hc.1, ← hc.2]
          · rw [if_neg hc] at hs
            simp at hs

/-- Folding the aggregation step over a list of occurrences preserves the
invariant. -/
theorem inv_fold (l : List Triple) :
    ∀ (p : List Triple) (st : Grouped × List (String × String)),
      Inv p st.1 st.2 →
      Inv (p ++ l) (l.foldl aggStep st).1 (l.foldl aggStep st).2 := by
  induction l with
  | nil =>
    intro p st h
    simpa using h
  | cons t l2 ih =>
    intro p st h
    rw [List.foldl_cons]
    have h3 := ih (p ++ [t]) (aggStep st t) (inv_step t h)
    simpa only [List.append_assoc, List.singleton_append] using h3

/-- The invariant holds at the start of a run: no occurrences processed,
no grouped entries, no seen keys. -/
theorem inv_init : Inv [] [] [] := by
  refine ⟨?_, ?_, ?_⟩
  · intro r h
    simp [keyCount, groupedEntries]
  · intro r b c hmem
    simp [groupedEntries] at hmem
  · intro r h
    simp [firstOcc]

/-- The innermost commit loop is a fold of aggStep over the commit
occurrences. -/
theorem foldl_commits (name b : String) (cs : List Commit)
    (st : Grouped × List (String × String)) :
    cs.foldl (fun st c => aggStep st (name, b, c)) st
      = (cs.map (fun c => (name, b, c))).foldl aggStep st :=
  (List.foldl_map _ _ _ _).symm

/-- The branch loop is a fold of aggStep over that repository's flattened
occurrences. -/
theorem foldl_branches (name : String) (brs : List (String × List Commit))
    (st : Grouped × List (String × String)) :
    brs.foldl (fun st bc =>
        bc.2.foldl (fun st c => aggStep st (name, bc.1, c)) st) st
      = (brs.flatMap (fun bc =>
          bc.2.map (fun c => (name, bc.1, c)))).foldl aggStep st := by
  induction brs generalizing st with
  | nil => rfl
  | cons bc rest ih =>
    rw [List.foldl_cons, List.flatMap_cons, List.foldl_append, ih,
      foldl_commits]

/-- The triple loop of main is the fold of aggStep over the flat occurrence
enumeration. -/
theorem aggregateFrom_eq (repos : List RepoInput)
    (st : Grouped × List (String × String)) :
    aggregateFrom st repos = (flattenInput repos).foldl aggStep st := by
  induction repos generalizing st with
  | nil => rfl
  | cons repo rest ih =>
    unfold aggregateFrom flattenInput
    rw [List.foldl_cons, List.flatMap_cons, List.foldl_append,
      ← foldl_branches repo.name repo.branches st]
    exact ih _

/-- After a full run the invariant holds with the whole input processed. -/
theorem inv_aggregate (repos : List RepoInput) :
    Inv (flattenInput repos) (aggregate repos)
      (aggregateFrom ([], []) repos).2 := by
  have h := inv_fold (flattenInput repos) [] ([], []) inv_init
  rw [List.nil_append] at h
  rw [aggregate, aggregateFrom_eq]
  exact h

/-- The dedup count of any (repository, hash) key in a finished run: one
when the key occurs in the input at all, zero otherwise. -/
theorem keyCount_aggregate (repos : List RepoInput) (r h : String) :
    keyCount (aggregate repos) r h
      = if (firstOcc (flattenInput repos) r h).isSome = true then 1 else 0 := by
  have hinv := inv_aggregate repos
  rw [hinv.1 r h]
  by_cases hs : (r, h) ∈ (aggregateFrom ([], []) repos).2
  · rw [if_pos hs, if_pos ((hinv.2.2 r h).mp hs)]
  · rw [if_neg hs, if_neg (fun hc => hs ((hinv.2.2 r h).mpr hc))]

/-- The first occurrence of a key in the input is present in the grouped
result. -/
theorem mem_aggregate_of_firstOcc {repos : List RepoInput}
    {r h b : String} {c : Commit}
    (hf : firstOcc (flattenInput repos) r h = some (b, c)) :
    (r, b, c) ∈ groupedEntries (aggregate repos) := by
  have hcount := keyCount_aggregate repos r h
  rw [hf] at hcount
  simp only [Option.isSome_some, if_pos] at hcount
  have hpos : 0 < (groupedEntries (aggregate repos)).countP
      (fun e => decide (e.1 = r ∧ e.2.2.hash = h)) := by
    unfold keyCount at hcount
    omega
  obtain ⟨e, hmem, hpe⟩ := List.countP_pos_iff.mp hpos
  obtain ⟨e1, e2, e3⟩ := e
  have hpe2 : e1 = r ∧ e3.hash = h := of_decide_eq_true hpe
  obtain ⟨h1, h2⟩ := hpe2
  subst h1
  have hfo := (inv_aggregate repos).2.1 e1 e2 e3 hmem
  rw [h2, hf] at hfo
  have hfo2 := Option.some.inj hfo
  injection hfo2 with hb hc
  rw [hb, hc]
  exact hmem

/-- C1: in a finished run, each (repository, short hash) pair discovered on
any number of branches has exactly one entry in the grouped structure
(none when it never occurs), and every grouped entry sits under the first
branch, in enumeration order, on which its key was encountered, carrying
the record of that first encounter. -/
theorem dedup_unique_first_branch (repos : List RepoInput) (r h : String) :
    keyCount (aggregate repos) r h
      = (if (firstOcc (flattenInput repos) r h).isSome = true then 1 else 0)
    ∧ ∀ b c, (r, b, c) ∈ groupedEntries (aggregate repos) →
        firstOcc (flattenInput repos) r c.hash = some (b, c) :=
  ⟨keyCount_aggregate repos r h,
   fun b c hm => (inv_aggregate repos).2.1 r b c hm⟩

/-- C1 witness: in the spec scenario, the duplicate a2 appears exactly once
in the grouped result and its first occurrence in enumeration order is on
refs/heads/main, the first-enumerated branch. -/
theorem dedup_unique_first_branch_witness :
    keyCount (aggregate demoRepos) "alpha" "a2" = 1
    ∧ firstOcc (flattenInput demoRepos) "alpha" demoA2.hash
        = some ("refs/heads/main", demoA2) := by
  constructor
  · rw [(dedup_unique_first_branch demoRepos "alpha" "a2").1]
    decide
  · exact (dedup_unique_first_branch demoRepos "alpha" "a2").2
      "refs/heads/main" demoA2 (by decide)

/-- C10: the aggregation keys on the directory basename alone, so two
discovered checkouts with equal basenames behave as a single repository:
aggregating them equals aggregating one repository carrying both branch
enumerations in order, and any commit hash they share stays within one
dedup scope, appearing at most once in the grouped result. -/
theorem same_name_single_scope (r1 r2 : RepoInput) (hname : r1.name = r2.name) :
    aggregate [r1, r2]
      = aggregate [{ path := r1.path, name := r1.name,
                     branches := r1.branches ++ r2.branches }]
    ∧ ∀ h : String, keyCount (aggregate [r1, r2]) r1.name h ≤ 1 := by
  constructor
  · have hflat : flattenInput [r1, r2]
        = flattenInput [{ path := r1.path, name := r1.name,
                          branches := r1.branches ++ r2.branches }] := by
      unfold flattenInput
      simp only [List.flatMap_cons, List.flatMap_nil, List.append_nil,
        List.flatMap_append]
      rw [hname]
    rw [aggregate, aggregate, aggregateFrom_eq, aggregateFrom_eq, hflat]
  · intro h
    rw [keyCount_aggregate]
    by_cases hs : (firstOcc (flattenInput [r1, r2]) r1.name h).isSome = true
    · rw [if_pos hs]
    · rw [if_neg hs]
      omega

/-- C10 witness: two same-named checkouts at /a/proj and /b/proj sharing
commit a2 aggregate exactly like a single proj repository, and a2 is
reported at most once. -/
theorem same_name_single_scope_witness :
    aggregate [demoDup1, demoDup2]
      = aggregate [{ path := demoDup1.path, name := demoDup1.name,
                     branches := demoDup1.branches ++ demoDup2.branches }]
    ∧ keyCount (aggregate [demoDup1, demoDup2]) demoDup1.name "a2" ≤ 1 := by
  have h := same_name_single_scope demoDup1 demoDup2 rfl
  exact ⟨h.1, h.2 "a2"⟩

/-- C5 counterexample: in the spec scenario the grouping keys of the
grouped structure are the raw ref names such as refs/heads/main, not the
stripped display name main that the renderer later computes, so the
Aggregator does not use the prefix-stripped name as its grouping key. -/
theorem aggregator_raw_key_counterexample :
    groupedEntries (aggregate demoRepos)
      = [("alpha", "refs/heads/main", demoA1),
         ("alpha", "refs/heads/main", demoA2),
         ("alpha", "refs/heads/feature", demoA3)]
    ∧ displayName "refs/heads/main" = "main"
    ∧ ("refs/heads/main" : String) ≠ "main" := by
  refine ⟨by decide, by decide, by decide⟩

/-- C5 amended: the Aggregator groups under the raw, unstripped branch ref
name (every grouped occurrence comes verbatim from the input enumeration);
prefix stripping happens only when the renderer displays the branch line.
Two refs that differ only in their remote prefix therefore stay distinct
grouping keys even though their display names coincide. -/
theorem aggregator_key_amended :
    (∀ (repos : List RepoInput) (r b : String) (c : Commit),
        (r, b, c) ∈ groupedEntries (aggregate repos) →
        (r, b, c) ∈ flattenInput repos)
    ∧ ∀ (p n b1 b2 : String) (c1 c2 : Commit), b1 ≠ b2 → c1.hash ≠ c2.hash →
        (n, b1, c1) ∈ groupedEntries (aggregate
          [{ path := p, name := n, branches := [(b1, [c1]), (b2, [c2])] }])
        ∧ (n, b2, c2) ∈ groupedEntries (aggregate
          [{ path := p, name := n, branches := [(b1, [c1]), (b2, [c2])] }]) := by
  constructor
  · intro repos r b c hmem
    exact (firstOcc_mem ((inv_aggregate repos).2.1 r b c hmem)).1
  · intro p n b1 b2 c1 c2 hb hc
    have hflat : flattenInput
        [{ path := p, name := n, branches := [(b1, [c1]), (b2, [c2])] }]
        = [(n, b1, c1), (n, b2, c2)] := by
      simp [flattenInput]
    constructor
    · exact @mem_aggregate_of_firstOcc _ n c1.hash b1 c1
        (by rw [hflat]; simp [firstOcc])
    · exact @mem_aggregate_of_firstOcc _ n c2.hash b2 c2
        (by rw [hflat]; simp [firstOcc, hc])

/-- C5 amended witness: origin/main and upstream/main share the display
name main yet remain two distinct grouping keys of the grouped result. -/
theorem aggregator_key_amended_witness :
    ("alpha", "refs/remotes/origin/main", demoA1) ∈ groupedEntries (aggregate
      [{ path := "/p", name := "alpha",
         branches := [("refs/remotes/origin/main", [demoA1]),
                      ("refs/remotes/upstream/main", [demoA2])] }])
    ∧ ("alpha", "refs/remotes/upstream/main", demoA2) ∈ groupedEntries
      (aggregate
        [{ path := "/p", name := "alpha",
           branches := [("refs/remotes/origin/main", [demoA1]),
                        ("refs/remotes/upstream/main", [demoA2])] }])
    ∧ displayName "refs/remotes/origin/main"
        = displayName "refs/remotes/upstream/main" := by
  have h := aggregator_key_amended.2 "/p" "alpha" "refs/remotes/origin/main"
    "refs/remotes/upstream/main" demoA1 demoA2 (by decide) (by decide)
  exact ⟨h.1, h.2, by decide⟩

/-- Inserting into a list keeps exactly the old elements plus the new one. -/
theorem mem_insertLe {α : Type} (le : α → α → Bool) (x y : α) (l : List α) :
    y ∈ insertLe le x l ↔ y = x ∨ y ∈ l := by
  induction l with
  | nil => simp [insertLe]
  | cons z t ih =>
    by_cases hz : le x z
    · simp only [insertLe, if_pos hz, List.mem_cons]
      try tauto
    · simp only [insertLe, if_neg hz, List.mem_cons, ih]
      try tauto

/-- Stable insertion into a sorted list keeps it sorted, for a total and
transitive Bool order. -/
theorem pairwise_insertLe {α : Type} (le : α → α → Bool)
    (htot : ∀ a b, le a b = true ∨ le b a = true)
    (htrans : ∀ a b c, le a b = true → le b c = true → le a c = true)
    (x : α) (l : List α) (hl : l.Pairwise (fun a b => le a b = true)) :
    (insertLe le x l).Pairwise (fun a b => le a b = true) := by
  induction l with
  | nil => simp [insertLe]
  | cons z t ih =>
    obtain ⟨hz, ht⟩ := List.pairwise_cons.mp hl
    by_cases hxz : le x z
    · rw [insertLe, if_pos hxz]
      refine List.pairwise_cons.mpr ⟨?_, hl⟩
      intro b hb
      rcases List.mem_cons.mp hb with rfl | hbt
      · exact hxz
      · exact htrans x z b hxz (hz b hbt)
    · rw [insertLe, if_neg hxz]
      refine List.pairwise_cons.mpr ⟨?_, ih ht⟩
      intro b hb
      rcases (mem_insertLe le x b t).mp hb with rfl | hbt
      · rcases htot b z with h1 | h1
        · exact absurd h1 hxz
        · exact h1
      · exact hz b hbt

/-- The stable insertion sort sorts, for a total and transitive Bool
order. -/
theorem pairwise_sortLe {α : Type} (le : α → α → Bool)
    (htot : ∀ a b, le a b = true ∨ le b a = true)
    (htrans : ∀ a b c, le a b = true → le b c = true → le a c = true)
    (l : List α) :
    (sortLe le l).Pairwise (fun a b => le a b = true) := by
  induction l with
  | nil => simp [sortLe]
  | cons x t ih => exact pairwise_insertLe le htot htrans x (sortLe le t) ih

/-- C4: in the structure the renderer reads, every populated branch entry
carries its commits in non-decreasing timestamp order, because the render
loop sorts each branch's list by the integer timestamp key. -/
theorem branch_commit_lists_sorted (g : Grouped) (dt : String) (rm : RepoMap)
    (r : String) (bm : BranchMap) (b : String) (cs : List Commit)
    (h1 : (dt, rm) ∈ render_sorted g) (h2 : (r, bm) ∈ rm)
    (h3 : (b, cs) ∈ bm) :
    cs.Pairwise (fun a c => a.timestamp ≤ c.timestamp) := by
  unfold render_sorted at h1
  obtain ⟨de, hde, hmk⟩ := List.mem_map.mp h1
  have hrm : rm = (sortLe (fun a b => decide (a.1 ≤ b.1)) de.2).map _ :=
    (congrArg Prod.snd hmk).symm
  rw [hrm] at h2
  obtain ⟨re, hre, hmk2⟩ := List.mem_map.mp h2
  have hbm : bm = (sortLe (fun a b => decide (a.1 ≤ b.1)) re.2).map _ :=
    (congrArg Prod.snd hmk2).symm
  rw [hbm] at h3
  obtain ⟨be, hbe, hmk3⟩ := List.mem_map.mp h3
  have hcs : cs = sortLe (fun a b => decide (a.timestamp ≤ b.timestamp)) be.2 :=
    (congrArg Prod.snd hmk3).symm
  rw [hcs]
  have hp := pairwise_sortLe
    (fun a b : Commit => decide (a.timestamp ≤ b.timestamp))
    (fun a b => by
      rcases le_total a.timestamp b.timestamp with h | h
      · exact Or.inl (decide_eq_true h)
      · exact Or.inr (decide_eq_true h))
    (fun a b c hab hbc =>
      decide_eq_true (le_trans (of_decide_eq_true hab) (of_decide_eq_true hbc)))
    be.2
  exact hp.imp (fun h => of_decide_eq_true h)

/-- C4 witness: rendering a grouped structure whose branch holds a2 before
a1 yields that branch with the list [a1, a2], non-decreasing in
timestamp. -/
theorem branch_commit_lists_sorted_witness :
    [demoA1, demoA2].Pairwise (fun a c => a.timestamp ≤ c.timestamp) :=
  branch_commit_lists_sorted demoUnsorted "2024-01-01"
    [("alpha", [("refs/heads/main", [demoA1, demoA2])])] "alpha"
    [("refs/heads/main", [demoA1, demoA2])] "refs/heads/main"
    [demoA1, demoA2] (by decide) (by decide) (by decide)

end CommitHistory
